import Mathlib

/-!
Verification of the mnemonic normalization, language-detection and
fuzzy-correction engine (`packages/sdk/utils/src/account.ts`).

The engine's external collaborators are not part of the core source:
* the BIP-39 wordlist data (`bip39.wordlists`) and the checksum validator
  (`bip39.validateMnemonic`) come from the external `bip39` package, so they
  appear here as explicit parameters (`wordlists`, `bip39Validate`);
* `normalizeAccents` (accent stripping) is likewise passed as a parameter
  `normAcc`;
* `levenshteinDistance` is given a concrete definition below.

JavaScript `Map` values are modelled as association lists whose key order is
the `Map`'s insertion order; `Map` construction from a list of entries lets a
later entry overwrite an earlier one with the same key, which `jsMapGet`
reproduces by scanning the reversed entry list.  Generators are modelled as
the finite list of every value they yield; a generator that throws is
modelled with `Except.error`.
-/

/-- The closed 9-language enumeration `MnemonicLanguages`. -/
inductive MnemonicLanguages where
  | chinese_simplified
  | chinese_traditional
  | english
  | french
  | italian
  | japanese
  | korean
  | spanish
  | portuguese
deriving DecidableEq, Repr

/-- A ranked replacement candidate: `interface Suggestion { distance; word }`. -/
structure Suggestion where
  distance : Nat
  word : String
deriving DecidableEq, Repr

/-- `getAllLanguages` returns the fixed nine languages in a fixed order. -/
def getAllLanguages : List MnemonicLanguages :=
  [ MnemonicLanguages.chinese_simplified
  , MnemonicLanguages.chinese_traditional
  , MnemonicLanguages.english
  , MnemonicLanguages.french
  , MnemonicLanguages.italian
  , MnemonicLanguages.japanese
  , MnemonicLanguages.korean
  , MnemonicLanguages.spanish
  , MnemonicLanguages.portuguese ]

/-- `isLatinBasedLanguage`, the exhaustive switch from the source. -/
def isLatinBasedLanguage (language : MnemonicLanguages) : Bool :=
  match language with
  | MnemonicLanguages.english => true
  | MnemonicLanguages.french => true
  | MnemonicLanguages.italian => true
  | MnemonicLanguages.spanish => true
  | MnemonicLanguages.portuguese => true
  | MnemonicLanguages.chinese_simplified => false
  | MnemonicLanguages.chinese_traditional => false
  | MnemonicLanguages.japanese => false
  | MnemonicLanguages.korean => false

/-- `getWordList(language?)`: dispatch on `language ?? english` into the
wordlist table, here the parameter `wordlists`. -/
def getWordList (wordlists : MnemonicLanguages → List String)
    (language : Option MnemonicLanguages) : List String :=
  wordlists (language.getD MnemonicLanguages.english)

/-- Character-level model of splitting a string at every whitespace character
(the single-character split underlying `/\s+/`): adjacent separators produce
empty segments, which the caller collapses. -/
def splitWs : List Char → List (List Char)
  | [] => [[]]
  | c :: cs =>
    if c.isWhitespace then [] :: splitWs cs
    else
      match splitWs cs with
      | [] => [[c]]
      | t :: ts => (c :: t) :: ts

/-- `String.prototype.trim`: drop leading and trailing whitespace. -/
def trimChars (l : List Char) : List Char :=
  ((l.dropWhile Char.isWhitespace).reverse.dropWhile Char.isWhitespace).reverse

/-- `splitMnemonic(mnemonic)`, i.e. `mnemonic.trim().split(/\s+/)`.
After trimming, a JavaScript `/\s+/` split of a nonempty string is the list
of maximal nonempty runs of non-whitespace characters; splitting the empty
string yields `[""]` (the regex cannot match, so the whole string is the one
segment). -/
def splitMnemonic (mnemonic : String) : List String :=
  let t := trimChars mnemonic.data
  if t = [] then [""]
  else ((splitWs t).filter (fun l => l ≠ [])).map (fun l => String.mk l)

/-- `joinMnemonic(words, language)`: join on U+3000 for Japanese, on a single
ASCII space otherwise. -/
def joinMnemonic (words : List String) (language : Option MnemonicLanguages) : String :=
  String.intercalate
    (if language = some MnemonicLanguages.japanese then "　" else " ") words

/-- Lookup in a JavaScript `Map` built with `new Map(entries)`: the last
entry with the requested key wins. -/
def jsMapGet [BEq κ] (entries : List (κ × β)) (k : κ) : Option β :=
  (entries.reverse.find? (fun p => p.1 == k)).map Prod.snd

/-- `detectLanguage(words, candidates?)`: score every candidate by how many
of the words are in its wordlist, fold the scores down to the leaders and
the high score, and answer only a unique leader with score at least 1. -/
def detectLanguage (wordlists : MnemonicLanguages → List String)
    (words : List String) (candidates : Option (List MnemonicLanguages)) :
    Option MnemonicLanguages :=
  let scores : List (MnemonicLanguages × Nat) :=
    (candidates.getD getAllLanguages).map (fun candidate =>
      (candidate,
        words.foldl
          (fun count word =>
            if word ∈ getWordList wordlists (some candidate) then count + 1 else count)
          0))
  let winners :=
    scores.foldl
      (fun (p : List MnemonicLanguages × Nat) cs =>
        if cs.2 > p.2 then ([cs.1], cs.2)
        else if cs.2 = p.2 then (p.1 ++ [cs.1], p.2)
        else p)
      ([], 0)
  if winners.1.length ≠ 1 ∨ winners.2 < 1 then none
  else winners.1.head?

/-- `formatNonAccentedCharacters(words, language)`: for Latin-based languages,
replace each word by the map entry keyed by its own accent-stripped form,
falling back to the word itself.  `normAcc` stands for the imported
`normalizeAccents`. -/
def formatNonAccentedCharacters (wordlists : MnemonicLanguages → List String)
    (normAcc : String → String) (words : List String)
    (language : MnemonicLanguages) : List String :=
  if isLatinBasedLanguage language then
    let wordList := getWordList wordlists (some language)
    let normalizedWordMap := wordList.map (fun word => (normAcc word, word))
    words.map (fun word => (jsMapGet normalizedWordMap (normAcc word)).getD word)
  else words

/-- `word.toLowerCase()`, modelled per character. -/
def toLowerString (s : String) : String :=
  String.mk (s.data.map Char.toLower)

/-- `normalizeMnemonic(mnemonic, language?)`: split, lowercase, resolve the
language (`language ?? detectLanguage(lowered)`), and either stop (unknown
language) or re-accent and join. -/
def normalizeMnemonic (wordlists : MnemonicLanguages → List String)
    (normAcc : String → String) (mnemonic : String)
    (language : Option MnemonicLanguages) : String :=
  let words := splitMnemonic mnemonic
  let lowered := words.map toLowerString
  let detectedLanguage :=
    match language with
    | some l => some l
    | none => detectLanguage wordlists lowered none
  match detectedLanguage with
  | none => joinMnemonic lowered none
  | some lang =>
    joinMnemonic (formatNonAccentedCharacters wordlists normAcc lowered lang) (some lang)

/-- Modelled from the spec: the repository's `levenshteinDistance`
(`packages/sdk/utils/src/levenshtein.ts`, not under `src/`) is "a standard
single-character insertion/deletion/substitution edit distance (Levenshtein)";
this is the textbook recursion on character lists, made structural on a fuel
argument; every recursive call shortens the combined length, so
`s.length + t.length` fuel never runs out. -/
def levenshteinAux : Nat → List Char → List Char → Nat
  | 0, _, _ => 0
  | _ + 1, [], t => t.length
  | _ + 1, a :: s, [] => (a :: s).length
  | fuel + 1, a :: s, b :: t =>
    if a = b then levenshteinAux fuel s t
    else 1 + min (levenshteinAux fuel (a :: s) t)
            (min (levenshteinAux fuel s (b :: t)) (levenshteinAux fuel s t))

/-- Modelled from the spec: Levenshtein edit distance on character lists. -/
def levenshteinList (s t : List Char) : Nat :=
  levenshteinAux (s.length + t.length) s t

/-- Modelled from the spec: string-level Levenshtein edit distance. -/
def levenshteinDistance (a b : String) : Nat :=
  levenshteinList a.data b.data

/-- Non-decreasing distance order on suggestions, the comparator
`(a, b) => a.distance - b.distance`. -/
def suggestionLE : Suggestion → Suggestion → Prop :=
  fun a b => a.distance ≤ b.distance

instance : DecidableRel suggestionLE :=
  fun a b => inferInstanceAs (Decidable (a.distance ≤ b.distance))

instance : IsTotal Suggestion suggestionLE :=
  ⟨fun a b => Nat.le_total a.distance b.distance⟩

instance : IsTrans Suggestion suggestionLE :=
  ⟨fun _ _ _ hab hbc => Nat.le_trans hab hbc⟩

/-- `wordSuggestions(typo, language)`: pair every wordlist word with its edit
distance to the typo and sort ascending by distance.  `Array.prototype.sort`
is stable, and a stable sort by a total preorder is uniquely determined, so
the stable `List.insertionSort` models it exactly. -/
def wordSuggestions (wordlists : MnemonicLanguages → List String)
    (typo : String) (language : MnemonicLanguages) : List Suggestion :=
  List.insertionSort suggestionLE
    ((getWordList wordlists (some language)).map
      (fun word => { distance := levenshteinDistance typo word, word := word }))

/-- The `maxWeight` parameter of `combineSuggestions` can be the JavaScript
`Infinity`, modelled as `none`. -/
def jsNegative (w : Option Int) : Bool :=
  match w with
  | none => false
  | some m => decide (m < 0)

/-- `distance < maxWeight`, where `maxWeight` may be `Infinity`. -/
def ltMaxWeight (d : Nat) (maxWeight : Option Int) : Bool :=
  match maxWeight with
  | none => true
  | some m => decide ((d : Int) < m)

/-- `maxWeight - distance`, where `Infinity - distance = Infinity`. -/
def subtractWeight (w : Option Int) (d : Nat) : Option Int :=
  w.map (fun m => m - (d : Int))

/-- `(nextSuggestion?.distance ?? maxWeight) - suggestion.distance`: the upper
weight bound passed to the recursive `combineSuggestions` call for the head
choice `s` whose next-ranked in-range sibling is `nxt`. -/
def windowOf (maxWeight : Option Int) (s : Suggestion) (nxt : Option Suggestion) : Option Int :=
  match nxt with
  | some s2 => some ((s2.distance : Int) - (s.distance : Int))
  | none => subtractWeight maxWeight s.distance

/-- Pair each list element with its successor (`none` for the last element),
modelling the one-step lookahead of the suggestion iterator. -/
def withNext : List α → List (α × Option α)
  | [] => []
  | [a] => [(a, none)]
  | a :: b :: t => (a, some b) :: withNext (b :: t)

/-- The inner `suggestionsInRange` generator: skip suggestions below
`minWeight`, then yield until one reaches `maxWeight`. -/
def suggestionsInRange (suggestions : List Suggestion)
    (minWeight : Int) (maxWeight : Option Int) : List Suggestion :=
  (suggestions.dropWhile (fun s => decide ((s.distance : Int) < minWeight))).takeWhile
    (fun s => ltMaxWeight s.distance maxWeight)

/-- The error thrown by `combineSuggestions`. -/
def combineError : String :=
  "programming error: suggestions map must have at least one entry"

/-- Concatenate the yields of a fallible enumeration, stopping at the first
error (a generator that throws mid-iteration). -/
def exceptFlatMap (xs : List α) (f : α → Except ε (List β)) : Except ε (List β) :=
  xs.foldr
    (fun a acc => do
      let h ← f a
      let t ← acc
      pure (h ++ t))
    (Except.ok [])

/-- Fuel-indexed model of the recursive generator `combineSuggestions(spots,
minWeight = 0, maxWeight = Infinity)`.  `spots` stands for the `Map` entry
list in insertion order (keys distinct).  A call first throws on an empty map
or a negative weight, then either yields the in-range suggestions of the sole
position (base case), or walks the head position's in-range suggestions with
one-step lookahead, recursing on the remaining positions with the window
`[0, (next?.distance ?? maxWeight) - suggestion.distance)` and prefixing the
head choice to every recursively produced assignment.  The recursion is on
the strictly decreasing map size, so `fuel = spots.length` is always enough;
fuel exhaustion reports the same error so that it can never be confused with
a yielded value. -/
def combineSuggestionsAux (fuel : Nat) (spots : List (Nat × List Suggestion))
    (minWeight : Int) (maxWeight : Option Int) :
    Except String (List (List (Nat × String))) :=
  match fuel with
  | 0 => Except.error combineError
  | fuel + 1 =>
    if spots.isEmpty || decide (minWeight < 0) || jsNegative maxWeight then
      Except.error combineError
    else
      match spots with
      | [] => Except.error combineError
      | (index, suggestions) :: rest =>
        let inRange := suggestionsInRange suggestions minWeight maxWeight
        if rest.isEmpty then
          Except.ok (inRange.map (fun s => [(index, s.word)]))
        else
          let remaining := spots.filter (fun p => p.1 != index)
          exceptFlatMap (withNext inRange)
            (fun sn =>
              (combineSuggestionsAux fuel remaining 0 (windowOf maxWeight sn.1 sn.2)).map
                (List.map (fun list => (index, sn.1.word) :: list)))

/-- `combineSuggestions` with the source's default weights supplied
explicitly at each call site. -/
def combineSuggestions (spots : List (Nat × List Suggestion))
    (minWeight : Int) (maxWeight : Option Int) :
    Except String (List (List (Nat × String))) :=
  combineSuggestionsAux spots.length spots minWeight maxWeight

/-- The `SpotSuggestions` map built by `suggestUnvalidatedCorrections`: every
position of the phrase (the wordlist filter is commented out in the source),
keyed by index, mapped to its ranked suggestions. -/
def spotSuggestionsFor (wordlists : MnemonicLanguages → List String)
    (words : List String) (language : MnemonicLanguages) :
    List (Nat × List Suggestion) :=
  words.enum.map (fun iw => (iw.1, wordSuggestions wordlists iw.2 language))

/-- Substitute a replacement assignment into the original token sequence:
`words.map((word, i) => replacements.get(i) ?? word)`. -/
def applyReplacements (words : List String)
    (replacementList : List (Nat × String)) : List String :=
  words.enum.map (fun iw => (jsMapGet replacementList iw.1).getD iw.2)

/-- `suggestUnvalidatedCorrections(words, language)`: nothing to do on an
empty phrase; otherwise enumerate assignments with `combineSuggestions` and
join each substituted token sequence back into a phrase. -/
def suggestUnvalidatedCorrections (wordlists : MnemonicLanguages → List String)
    (words : List String) (language : MnemonicLanguages) :
    Except String (List String) :=
  let invalidWords := words.enum
  if invalidWords.isEmpty then Except.ok []
  else
    (combineSuggestions (spotSuggestionsFor wordlists words language) 0 none).map
      (fun lists =>
        lists.map (fun replacementList =>
          joinMnemonic (applyReplacements words replacementList) (some language)))

/-- `validateMnemonic(mnemonic, bip39ToUse, language?)`: with a language,
one call to the external validator on that wordlist; without, try all nine
languages in `getAllLanguages` order and accept at the first success. -/
def validateMnemonic (bip39Validate : String → List String → Bool)
    (wordlists : MnemonicLanguages → List String)
    (mnemonic : String) (language : Option MnemonicLanguages) : Bool :=
  match language with
  | some l => bip39Validate mnemonic (getWordList wordlists (some l))
  | none =>
    getAllLanguages.any (fun l => bip39Validate mnemonic (getWordList wordlists (some l)))

/-- `suggestCorrections(mnemonic, language?)`: resolve the language (supplied
or detected on the split tokens), give up without one, otherwise keep exactly
the unvalidated suggestions accepted by the external checksum validator. -/
def suggestCorrections (wordlists : MnemonicLanguages → List String)
    (bip39Validate : String → List String → Bool)
    (mnemonic : String) (language : Option MnemonicLanguages) :
    Except String (List String) :=
  let words := splitMnemonic mnemonic
  let lang :=
    match language with
    | some l => some l
    | none => detectLanguage wordlists words none
  match lang with
  | none => Except.ok []
  | some lang =>
    (suggestUnvalidatedCorrections wordlists words lang).map
      (fun suggestions =>
        suggestions.filter (fun suggestion =>
          validateMnemonic bip39Validate wordlists suggestion (some lang)))

/-- Spec-side tokenizer for the correction claims: the maximal runs of
non-whitespace characters, in order ("splitting on runs of whitespace"). -/
def tokenRuns : List Char → List String
  | [] => []
  | c :: cs =>
    if c.isWhitespace then tokenRuns cs
    else
      String.mk (c :: cs.takeWhile (fun x => !x.isWhitespace)) ::
        tokenRuns (cs.dropWhile (fun x => !x.isWhitespace))
termination_by l => l.length
decreasing_by
  all_goals simp only [List.length_cons]
  · omega
  · have := (List.dropWhile_sublist (l := cs) (fun x => !x.isWhitespace)).length_le
    omega

/-! ### Concrete instances used by the closed witness statements -/

/-- A small concrete wordlist table standing in for the external BIP-39
wordlist data. -/
def sampleWordlists : MnemonicLanguages → List String
  | MnemonicLanguages.english => ["cat", "dog", "cot"]
  | MnemonicLanguages.french => ["été", "eta"]
  | _ => []

/-- Modelled from the spec: a concrete accent-stripping function (the
external `normalizeAccents` of the base package, absent from `src/`), here
covering the accented characters of the sample wordlists. -/
def sampleStrip (s : String) : String :=
  String.mk (s.data.map (fun c =>
    if c = 'é' then 'e' else if c = 'à' then 'a' else c))

/-- A concrete stand-in for the external checksum validator. -/
def sampleValidator (m : String) (_ : List String) : Bool :=
  m == "cat dog"

/-! ### Helper lemmas -/

theorem combineSuggestionsAux_error_of_degenerate (fuel : Nat)
    (spots : List (Nat × List Suggestion)) (minWeight : Int) (maxWeight : Option Int)
    (h : spots = [] ∨ minWeight < 0 ∨ ∃ m, maxWeight = some m ∧ m < 0) :
    combineSuggestionsAux fuel spots minWeight maxWeight = Except.error combineError := by
  cases fuel with
  | zero => rfl
  | succ fuel =>
    rcases h with h | h | ⟨m, hm, hneg⟩
    · subst h; rfl
    · unfold combineSuggestionsAux
      have : decide (minWeight < 0) = true := decide_eq_true h
      simp [this]
    · unfold combineSuggestionsAux
      have : jsNegative maxWeight = true := by
        simp [jsNegative, hm]; exact hneg
      simp [this]

/-! ### The claims -/

/-- C9: invoking the combinatorial enumeration on an empty `SpotSuggestions`
map, or with a negative `minWeight` or `maxWeight`, throws the fatal internal
error rather than returning normally. -/
theorem combineSuggestions_degenerate_error
    (spots : List (Nat × List Suggestion)) (minWeight : Int) (maxWeight : Option Int)
    (h : spots = [] ∨ minWeight < 0 ∨ ∃ m, maxWeight = some m ∧ m < 0) :
    combineSuggestions spots minWeight maxWeight = Except.error combineError :=
  combineSuggestionsAux_error_of_degenerate spots.length spots minWeight maxWeight h

/-- Witness for C9: the enumeration invoked on the empty map (the way
`suggestUnvalidatedCorrections` would call it) throws. -/
theorem combineSuggestions_degenerate_error_witness :
    combineSuggestions [] 0 none = Except.error combineError :=
  combineSuggestions_degenerate_error [] 0 none (Or.inl rfl)

/-- C10: `validateMnemonic` without a language succeeds exactly when some
language of the fixed nine makes the external bip39 validator accept. -/
theorem validateMnemonic_without_language
    (bip39Validate : String → List String → Bool)
    (wordlists : MnemonicLanguages → List String) (mnemonic : String) :
    validateMnemonic bip39Validate wordlists mnemonic none = true ↔
      ∃ l ∈ getAllLanguages,
        bip39Validate mnemonic (getWordList wordlists (some l)) = true := by
  simp [validateMnemonic, List.any_eq_true]

/-- C7: when no language is supplied and detection on the split tokens
returns none, `suggestCorrections` yields the empty sequence. -/
theorem suggestCorrections_undetected_empty
    (wordlists : MnemonicLanguages → List String)
    (bip39Validate : String → List String → Bool) (mnemonic : String)
    (h : detectLanguage wordlists (splitMnemonic mnemonic) none = none) :
    suggestCorrections wordlists bip39Validate mnemonic none = Except.ok [] := by
  unfold suggestCorrections
  simp [h]

/-- Witness for C7: the degenerate call on the empty phrase with no language
yields the empty sequence. -/
theorem suggestCorrections_undetected_empty_witness :
    detectLanguage sampleWordlists (splitMnemonic "") none = none ∧
      suggestCorrections sampleWordlists sampleValidator "" none = Except.ok [] :=
  ⟨by decide, suggestCorrections_undetected_empty _ _ _ (by decide)⟩

/-! ### Language detection: characterizing the score fold -/

/-- The score `detectLanguage` computes for one candidate: the number of
words (duplicates counted) present verbatim in its wordlist. -/
def detectScore (wordlists : MnemonicLanguages → List String)
    (words : List String) (candidate : MnemonicLanguages) : Nat :=
  words.countP (fun word => decide (word ∈ getWordList wordlists (some candidate)))

/-- The maximum score over a candidate list (at least 0). -/
def detectMax (wordlists : MnemonicLanguages → List String)
    (words : List String) (cand : List MnemonicLanguages) : Nat :=
  cand.foldl (fun a c => max a (detectScore wordlists words c)) 0


theorem detect_count_foldl (S : List String) (words : List String) : ∀ init : Nat,
    words.foldl (fun count word => if word ∈ S then count + 1 else count) init =
      init + words.countP (fun w => decide (w ∈ S)) := by
  induction words with
  | nil => intro init; simp
  | cons w t ih =>
    intro init
    by_cases hw : w ∈ S
    · rw [List.foldl_cons, if_pos hw, ih, List.countP_cons]
      have hd : decide (w ∈ S) = true := decide_eq_true hw
      rw [hd, if_pos rfl]
      omega
    · rw [List.foldl_cons, if_neg hw, ih, List.countP_cons]
      have hd : decide (w ∈ S) = false := decide_eq_false hw
      rw [hd]
      simp

/-- The running maximum of the second components, seeded at `m0`. -/
def runningMax (m0 : Nat) (l : List (MnemonicLanguages × Nat)) : Nat :=
  l.foldl (fun a p => max a p.2) m0

theorem le_runningMax (l : List (MnemonicLanguages × Nat)) : ∀ m0 : Nat,
    m0 ≤ runningMax m0 l := by
  induction l with
  | nil => intro m0; exact Nat.le_refl m0
  | cons p t ih =>
    intro m0
    exact Nat.le_trans (Nat.le_max_left m0 p.2) (ih (max m0 p.2))

theorem detect_fold_eq (l : List (MnemonicLanguages × Nat)) :
    ∀ (L0 : List MnemonicLanguages) (m0 : Nat),
    l.foldl
      (fun (p : List MnemonicLanguages × Nat) cs =>
        if cs.2 > p.2 then ([cs.1], cs.2)
        else if cs.2 = p.2 then (p.1 ++ [cs.1], p.2)
        else p)
      (L0, m0) =
      ((if runningMax m0 l = m0 then L0 else []) ++
        (l.filter (fun p => p.2 == runningMax m0 l)).map Prod.fst,
       runningMax m0 l) := by
  induction l with
  | nil => intro L0 m0; simp [runningMax]
  | cons p t ih =>
    intro L0 m0
    have hM : runningMax m0 (p :: t) = runningMax (max m0 p.2) t := rfl
    rw [List.foldl_cons]
    by_cases h1 : p.2 > m0
    · rw [if_pos h1, ih, hM, Nat.max_eq_right (Nat.le_of_lt h1)]
      have hne : runningMax p.2 t ≠ m0 := by
        have := le_runningMax t p.2
        omega
      rw [if_neg hne]
      simp only [List.filter_cons, beq_iff_eq]
      by_cases hp : p.2 = runningMax p.2 t
      · rw [if_pos hp.symm, if_pos hp]
        simp
      · rw [if_neg (fun h => hp h.symm), if_neg hp]
    · by_cases h2 : p.2 = m0
      · rw [if_neg h1, if_pos h2, ih, hM]
        have hmax : max m0 p.2 = m0 := by omega
        rw [hmax]
        simp only [List.filter_cons, beq_iff_eq]
        by_cases hm : runningMax m0 t = m0
        · rw [if_pos hm, if_pos hm, if_pos (by omega : p.2 = runningMax m0 t)]
          simp
        · rw [if_neg hm, if_neg hm, if_neg (by omega : ¬ p.2 = runningMax m0 t)]
      · have h3 : p.2 < m0 := by omega
        rw [if_neg h1, if_neg h2, ih, hM]
        have hmax : max m0 p.2 = m0 := Nat.max_eq_left (Nat.le_of_lt h3)
        rw [hmax]
        simp only [List.filter_cons, beq_iff_eq]
        have := le_runningMax t m0
        rw [if_neg (by omega : ¬ p.2 = runningMax m0 t)]

/-- C1: `detectLanguage` scores each candidate (defaulting to the fixed nine
languages) as the number of tokens present verbatim in its wordlist,
duplicates counted, and returns a language exactly when one unique candidate
attains the maximum score and that maximum is at least 1; the returned
language is that unique maximal candidate. -/
theorem detectLanguage_unique_max
    (wordlists : MnemonicLanguages → List String) (words : List String)
    (candidates : Option (List MnemonicLanguages)) (L : MnemonicLanguages) :
    detectLanguage wordlists words candidates = some L ↔
      (1 ≤ detectMax wordlists words (candidates.getD getAllLanguages) ∧
       (candidates.getD getAllLanguages).countP
         (fun c => detectScore wordlists words c ==
           detectMax wordlists words (candidates.getD getAllLanguages)) = 1 ∧
       L ∈ candidates.getD getAllLanguages ∧
       detectScore wordlists words L =
         detectMax wordlists words (candidates.getD getAllLanguages)) := by
  set cand := candidates.getD getAllLanguages with hcand
  set sc := detectScore wordlists words with hsc
  set M := detectMax wordlists words cand with hMdef
  unfold detectLanguage
  dsimp only
  rw [← hcand]
  have hscores : cand.map (fun candidate =>
      (candidate,
        words.foldl
          (fun count word =>
            if word ∈ getWordList wordlists (some candidate) then count + 1 else count)
          0)) = cand.map (fun c => (c, sc c)) := by
    apply List.map_congr_left
    intro c _
    rw [detect_count_foldl]
    simp [hsc, detectScore]
  rw [hscores, detect_fold_eq]
  have hrm : runningMax 0 (cand.map (fun c => (c, sc c))) = M := by
    rw [hMdef, detectMax, runningMax, List.foldl_map]
  rw [hrm]
  have hfm : (cand.map (fun c => (c, sc c))).filter (fun p => p.2 == M) =
      (cand.filter (fun c => sc c == M)).map (fun c => (c, sc c)) := by
    rw [List.filter_map]
    rfl
  rw [hfm]
  simp only [ite_self, List.nil_append]
  have hmap2 : ((cand.filter (fun c => sc c == M)).map (fun c => (c, sc c))).map Prod.fst =
      cand.filter (fun c => sc c == M) := by
    rw [List.map_map]
    exact List.map_id'' (fun c => rfl) _
  rw [hmap2, List.countP_eq_length_filter]
  by_cases hcond : (cand.filter (fun c => sc c == M)).length ≠ 1 ∨ M < 1
  · rw [if_pos hcond]
    constructor
    · intro h
      exact absurd h (by simp)
    · rintro ⟨hm1, hlen, hmem, hscL⟩
      rcases hcond with h | h
      · exact absurd hlen h
      · omega
  · rw [if_neg hcond]
    push_neg at hcond
    obtain ⟨hlen, hm1⟩ := hcond
    obtain ⟨x, hx⟩ := List.length_eq_one.mp hlen
    have hhead : (cand.filter (fun c => sc c == M)).head? = some x := by
      rw [hx]; rfl
    rw [hhead]
    have hxmem : x ∈ cand.filter (fun c => sc c == M) := by
      rw [hx]; exact List.mem_singleton_self x
    have hxc : x ∈ cand ∧ (sc x == M) = true := by
      simpa using List.mem_filter.mp hxmem
    constructor
    · intro h
      have hxL : x = L := by simpa using h
      subst hxL
      exact ⟨hm1, hlen, hxc.1, beq_iff_eq.mp hxc.2⟩
    · rintro ⟨-, -, hmem, hscL⟩
      have hLf : L ∈ cand.filter (fun c => sc c == M) :=
        List.mem_filter.mpr ⟨hmem, beq_iff_eq.mpr hscL⟩
      rw [hx] at hLf
      have hLx : L = x := by simpa using hLf
      simp [hLx]

/-- The continuation of a whitespace split: after the leading token, drop the
single separator character and split the remainder. -/
def splitWsTail : List Char → List (List Char)
  | [] => []
  | _ :: r => splitWs r

theorem splitWs_eq (l : List Char) :
    splitWs l = l.takeWhile (fun c => !c.isWhitespace) ::
      splitWsTail (l.dropWhile (fun c => !c.isWhitespace)) := by
  induction l with
  | nil => rfl
  | cons c cs ih =>
    by_cases hc : c.isWhitespace
    · have h1 : List.takeWhile (fun c => !c.isWhitespace) (c :: cs) = [] := by
        simp [hc]
      have h2 : List.dropWhile (fun c => !c.isWhitespace) (c :: cs) = c :: cs := by
        simp [hc]
      rw [h1, h2]
      simp only [splitWs, if_pos hc, splitWsTail]
    · have h1 : List.takeWhile (fun c => !c.isWhitespace) (c :: cs) =
          c :: cs.takeWhile (fun c => !c.isWhitespace) := by
        simp [hc]
      have h2 : List.dropWhile (fun c => !c.isWhitespace) (c :: cs) =
          cs.dropWhile (fun c => !c.isWhitespace) := by
        simp [hc]
      rw [h1, h2]
      simp only [splitWs, if_neg hc, ih]

theorem splitWs_filter_map (n : Nat) : ∀ l : List Char, l.length ≤ n →
    ((splitWs l).filter (fun x => x ≠ [])).map String.mk = tokenRuns l := by
  induction n with
  | zero =>
    intro l hl
    have hnil : l = [] := List.length_eq_zero.mp (Nat.le_zero.mp hl)
    subst hnil
    simp [splitWs, tokenRuns]
  | succ n ih =>
    intro l hl
    match l with
    | [] => simp [splitWs, tokenRuns]
    | c :: cs =>
      have hcs : cs.length ≤ n := by
        simp only [List.length_cons] at hl
        omega
      by_cases hc : c.isWhitespace
      · have h1 : splitWs (c :: cs) = [] :: splitWs cs := by
          simp only [splitWs, if_pos hc]
        have h2 : tokenRuns (c :: cs) = tokenRuns cs := by
          simp only [tokenRuns, if_pos hc]
        rw [h1, h2]
        have h3 : ([] :: splitWs cs).filter (fun x : List Char => x ≠ []) =
            (splitWs cs).filter (fun x => x ≠ []) := by
          simp [List.filter_cons]
        rw [h3]
        exact ih cs hcs
      · rw [splitWs_eq (c :: cs)]
        have h1 : List.takeWhile (fun c => !c.isWhitespace) (c :: cs) =
            c :: cs.takeWhile (fun c => !c.isWhitespace) := by
          simp [hc]
        have h2 : List.dropWhile (fun c => !c.isWhitespace) (c :: cs) =
            cs.dropWhile (fun c => !c.isWhitespace) := by
          simp [hc]
        rw [h1, h2]
        have hhead : ((c :: cs.takeWhile (fun c => !c.isWhitespace)) ::
            splitWsTail (cs.dropWhile (fun c => !c.isWhitespace))).filter
              (fun x : List Char => x ≠ []) =
            (c :: cs.takeWhile (fun c => !c.isWhitespace)) ::
              (splitWsTail (cs.dropWhile (fun c => !c.isWhitespace))).filter
                (fun x => x ≠ []) := by
          simp [List.filter_cons]
        rw [hhead, List.map_cons]
        have hrhs : tokenRuns (c :: cs) =
            String.mk (c :: cs.takeWhile (fun x => !x.isWhitespace)) ::
              tokenRuns (cs.dropWhile (fun x => !x.isWhitespace)) := by
          simp only [tokenRuns, if_neg hc]
        rw [hrhs]
        cases hD : cs.dropWhile (fun x => !x.isWhitespace) with
        | nil => simp [splitWsTail, tokenRuns]
        | cons d r =>
          have hsub : (d :: r).length ≤ cs.length := by
            rw [← hD]
            exact (List.dropWhile_sublist _).length_le
          simp only [List.length_cons] at hsub
          have hr : r.length ≤ n := by omega
          have hd : d.isWhitespace := by
            have hh := List.head?_dropWhile_not (fun x => !x.isWhitespace) cs
            rw [hD] at hh
            simpa using hh
          have htr : tokenRuns (d :: r) = tokenRuns r := by
            simp only [tokenRuns, if_pos hd]
          rw [htr]
          simp only [splitWsTail]
          rw [ih r hr]

/-- C8 counterexample: on the empty input string, `splitMnemonic` does not
yield an empty token sequence; it yields the one-element sequence containing
the empty token, because a JavaScript `/\s+/` split of the empty string is
`[""]`. -/
theorem splitMnemonic_empty_counterexample :
    splitMnemonic "" = [""] ∧ splitMnemonic "" ≠ [] := by
  constructor
  · rfl
  · decide

/-- C8 (amended): `splitMnemonic` trims leading and trailing whitespace and
splits the rest on runs of whitespace (the maximal non-whitespace runs, in
order); an input that trims to the empty string yields the single-element
sequence containing the empty token rather than an empty sequence. -/
theorem splitMnemonic_amended (s : String) :
    splitMnemonic s =
      if trimChars s.data = [] then [""] else tokenRuns (trimChars s.data) := by
  unfold splitMnemonic
  dsimp only
  by_cases h : trimChars s.data = []
  · rw [if_pos h, if_pos h]
  · rw [if_neg h, if_neg h]
    exact splitWs_filter_map (trimChars s.data).length _ (Nat.le_refl _)

theorem joinMnemonic_singleton (w : String) (language : Option MnemonicLanguages) :
    joinMnemonic [w] language = w := rfl

theorem find?_reverse (p : α → Bool) (l : List α) :
    l.reverse.find? p = (l.filter p).getLast? := by
  induction l with
  | nil => rfl
  | cons a t ih =>
    rw [List.reverse_cons, List.find?_append, ih, List.filter_cons]
    by_cases hp : p a
    · rw [if_pos hp]
      have hfa : [a].find? p = some a := by simp [List.find?, hp]
      rw [hfa]
      cases hm : t.filter p with
      | nil => simp
      | cons x xs =>
        rw [List.getLast?_cons_cons]
        have hne : x :: xs ≠ [] := List.cons_ne_nil x xs
        rw [List.getLast?_eq_getLast (x :: xs) hne]
        simp
    · rw [if_neg hp]
      have hfa : [a].find? p = none := by simp [List.find?, hp]
      rw [hfa]
      simp

theorem jsMapGet_map_unique (wordlist : List String) (normAcc : String → String) (w : String)
    (hmem : w ∈ wordlist)
    (huniq : ∀ v ∈ wordlist, normAcc v = normAcc w → v = w) :
    jsMapGet (wordlist.map (fun v => (normAcc v, v))) (normAcc w) = some w := by
  unfold jsMapGet
  rw [← List.map_reverse, List.find?_map]
  have hcomp : ((fun p : String × String => p.1 == normAcc w) ∘ (fun v => (normAcc v, v))) =
      (fun v => normAcc v == normAcc w) := rfl
  rw [hcomp]
  have hex : (wordlist.reverse.find? (fun v => normAcc v == normAcc w)).isSome := by
    rw [List.find?_isSome]
    exact ⟨w, List.mem_reverse.mpr hmem, by simp⟩
  obtain ⟨v, hv⟩ := Option.isSome_iff_exists.mp hex
  have hveq : v = w :=
    huniq v (List.mem_reverse.mp (List.mem_of_find?_eq_some hv))
      (by simpa using List.find?_some hv)
  rw [hv, hveq]
  rfl

theorem jsMapGet_map_last (wordlist : List String) (normAcc : String → String)
    (key w : String)
    (hlast : (wordlist.filter (fun v => normAcc v == key)).getLast? = some w) :
    jsMapGet (wordlist.map (fun v => (normAcc v, v))) key = some w := by
  unfold jsMapGet
  rw [← List.map_reverse, List.find?_map]
  have hcomp : ((fun p : String × String => p.1 == key) ∘ (fun v => (normAcc v, v))) =
      (fun v => normAcc v == key) := rfl
  rw [hcomp, find?_reverse, hlast]
  rfl

/-- C5: with the language supplied, `normalizeMnemonic` is the identity on a
canonical wordlist word, given the wordlist invariants of the spec: the word
is lowercase, is a single whitespace-free token, and no other canonical word
collapses to the same accent-stripped form (the stripped-form map is built
with the later entry winning, so a collision would redirect the earlier
word). -/
theorem normalizeMnemonic_canonical_identity
    (wordlists : MnemonicLanguages → List String) (normAcc : String → String)
    (L : MnemonicLanguages) (w : String)
    (hmem : w ∈ wordlists L)
    (hsplit : splitMnemonic w = [w])
    (hlower : toLowerString w = w)
    (huniq : ∀ v ∈ wordlists L, normAcc v = normAcc w → v = w) :
    normalizeMnemonic wordlists normAcc w (some L) = w := by
  unfold normalizeMnemonic
  dsimp only
  rw [hsplit]
  simp only [List.map_cons, List.map_nil, hlower]
  show joinMnemonic (formatNonAccentedCharacters wordlists normAcc [w] L) (some L) = w
  unfold formatNonAccentedCharacters
  by_cases hlat : isLatinBasedLanguage L
  · rw [if_pos hlat]
    dsimp only
    have hget : jsMapGet ((getWordList wordlists (some L)).map
        (fun word => (normAcc word, word))) (normAcc w) = some w :=
      jsMapGet_map_unique (wordlists L) normAcc w hmem huniq
    simp only [List.map_cons, List.map_nil, hget, Option.getD_some]
    exact joinMnemonic_singleton w (some L)
  · rw [if_neg hlat]
    exact joinMnemonic_singleton w (some L)

/-- C6: for a Latin-based language, feeding the accent-stripped lowercase
form of a canonical word back through `normalizeMnemonic` recovers the
accented word, provided that word is the one the documented later-in-list-
order-wins rule selects for its stripped form (and stripping is idempotent
and the stripped form is a lowercase single token). -/
theorem normalizeMnemonic_accent_roundtrip
    (wordlists : MnemonicLanguages → List String) (normAcc : String → String)
    (L : MnemonicLanguages) (w : String)
    (hlat : isLatinBasedLanguage L = true)
    (hlast : ((wordlists L).filter (fun v => normAcc v == normAcc w)).getLast? = some w)
    (hidem : normAcc (normAcc w) = normAcc w)
    (hsplit : splitMnemonic (normAcc w) = [normAcc w])
    (hlower : toLowerString (normAcc w) = normAcc w) :
    normalizeMnemonic wordlists normAcc (normAcc w) (some L) = w := by
  unfold normalizeMnemonic
  dsimp only
  rw [hsplit]
  simp only [List.map_cons, List.map_nil, hlower]
  show joinMnemonic (formatNonAccentedCharacters wordlists normAcc [normAcc w] L) (some L) = w
  unfold formatNonAccentedCharacters
  rw [if_pos hlat]
  dsimp only
  have hget : jsMapGet ((getWordList wordlists (some L)).map
      (fun word => (normAcc word, word))) (normAcc (normAcc w)) = some w := by
    rw [hidem]
    exact jsMapGet_map_last (wordlists L) normAcc (normAcc w) w hlast
  simp only [List.map_cons, List.map_nil, hget, Option.getD_some]
  exact joinMnemonic_singleton w (some L)

/-- Witness for C5: a concrete canonical word is preserved. -/
theorem normalizeMnemonic_canonical_identity_witness :
    normalizeMnemonic sampleWordlists sampleStrip "cat"
      (some MnemonicLanguages.english) = "cat" :=
  normalizeMnemonic_canonical_identity _ _ _ _ (by decide) (by decide) (by decide)
    (by decide)

/-- Witness for C6: the stripped form of a concrete accented word normalizes
back to the accented word. -/
theorem normalizeMnemonic_accent_roundtrip_witness :
    normalizeMnemonic sampleWordlists sampleStrip (sampleStrip "été")
      (some MnemonicLanguages.french) = "été" :=
  normalizeMnemonic_accent_roundtrip _ _ _ _ (by decide) (by decide) (by decide)
    (by decide) (by decide)

theorem levenshteinAux_eq_zero_iff (fuel : Nat) : ∀ s t : List Char,
    s.length + t.length ≤ fuel → (levenshteinAux fuel s t = 0 ↔ s = t) := by
  induction fuel with
  | zero =>
    intro s t h
    have hs : s = [] := List.length_eq_zero.mp (by omega)
    have ht : t = [] := List.length_eq_zero.mp (by omega)
    subst hs; subst ht
    simp [levenshteinAux]
  | succ fuel ih =>
    intro s t h
    match s, t with
    | [], t =>
      simp only [levenshteinAux]
      constructor
      · intro h0
        exact (List.length_eq_zero.mp h0).symm
      · intro h0
        rw [← h0]
        rfl
    | a :: s, [] =>
      simp only [levenshteinAux]
      constructor
      · intro h0
        simp at h0
      · intro h0
        exact absurd h0 (List.cons_ne_nil a s)
    | a :: s, b :: t =>
      simp only [levenshteinAux]
      by_cases hab : a = b
      · rw [if_pos hab]
        have hlen : s.length + t.length ≤ fuel := by
          simp only [List.length_cons] at h
          omega
        rw [ih s t hlen]
        subst hab
        simp
      · rw [if_neg hab]
        constructor
        · intro h0
          omega
        · intro h0
          injection h0 with h1 h2
          exact absurd h1 hab

theorem levenshteinDistance_eq_zero_iff (a b : String) :
    levenshteinDistance a b = 0 ↔ a = b := by
  unfold levenshteinDistance levenshteinList
  rw [levenshteinAux_eq_zero_iff _ a.data b.data (Nat.le_refl _)]
  constructor
  · intro h
    cases a; cases b
    exact congrArg String.mk h
  · intro h
    rw [h]

theorem levenshteinDistance_self (a : String) : levenshteinDistance a a = 0 :=
  (levenshteinDistance_eq_zero_iff a a).mpr rfl

theorem filter_orderedInsert_neg (r : α → α → Prop) [DecidableRel r] (p : α → Bool)
    (a : α) (hpa : ¬ p a) : ∀ l : List α,
    (List.orderedInsert r a l).filter p = l.filter p := by
  intro l
  induction l with
  | nil => simp [List.orderedInsert, hpa]
  | cons b t ih =>
    rw [List.orderedInsert]
    by_cases hr : r a b
    · rw [if_pos hr, List.filter_cons, if_neg (by simpa using hpa)]
    · rw [if_neg hr, List.filter_cons, List.filter_cons]
      by_cases hpb : p b
      · rw [if_pos (by simpa using hpb), if_pos (by simpa using hpb), ih]
      · rw [if_neg (by simpa using hpb), if_neg (by simpa using hpb), ih]

theorem filter_orderedInsert_pos (r : α → α → Prop) [DecidableRel r] (p : α → Bool)
    (a : α) (hpa : p a) (hmono : ∀ b, ¬ r a b → ¬ p b) : ∀ l : List α,
    (List.orderedInsert r a l).filter p = a :: l.filter p := by
  intro l
  induction l with
  | nil => simp [List.orderedInsert, hpa]
  | cons b t ih =>
    rw [List.orderedInsert]
    by_cases hr : r a b
    · rw [if_pos hr, List.filter_cons, if_pos (by simpa using hpa)]
    · have hpb : ¬ p b := hmono b hr
      rw [if_neg hr, List.filter_cons, if_neg (by simpa using hpb), ih,
        List.filter_cons, if_neg (by simpa using hpb)]

theorem insertionSort_filter (r : α → α → Prop) [DecidableRel r] (p : α → Bool)
    (hmono : ∀ a b, p a → ¬ r a b → ¬ p b) : ∀ l : List α,
    (List.insertionSort r l).filter p = l.filter p := by
  intro l
  induction l with
  | nil => rfl
  | cons a t ih =>
    rw [List.insertionSort]
    by_cases hpa : p a
    · rw [filter_orderedInsert_pos r p a hpa (fun b => hmono a b hpa), ih,
        List.filter_cons, if_pos (by simpa using hpa)]
    · rw [filter_orderedInsert_neg r p a hpa, ih, List.filter_cons,
        if_neg (by simpa using hpa)]

/-- C3: for every input word (typo), `wordSuggestions` pairs every wordlist
word with its Levenshtein distance to the typo and returns those pairs sorted
by non-decreasing distance with equal-distance entries kept in wordlist order
(the per-distance slices of the ranking coincide with those of the unsorted
pairing); in particular, when the typo is itself a wordlist word, the ranking
starts with that word at distance 0. -/
theorem wordSuggestions_ranking
    (wordlists : MnemonicLanguages → List String) (typo : String)
    (language : MnemonicLanguages) :
    List.Perm (wordSuggestions wordlists typo language)
        ((getWordList wordlists (some language)).map
          (fun word => { distance := levenshteinDistance typo word, word := word })) ∧
    (wordSuggestions wordlists typo language).Pairwise suggestionLE ∧
    (∀ d : Nat,
      (wordSuggestions wordlists typo language).filter (fun s => s.distance == d) =
        ((getWordList wordlists (some language)).map
          (fun word => { distance := levenshteinDistance typo word, word := word })).filter
            (fun s => s.distance == d)) ∧
    (typo ∈ getWordList wordlists (some language) →
      (wordSuggestions wordlists typo language).head? =
        some { distance := 0, word := typo }) := by
  set mapped := (getWordList wordlists (some language)).map
    (fun word => ({ distance := levenshteinDistance typo word, word := word } : Suggestion))
    with hmapped
  have hws : wordSuggestions wordlists typo language =
      List.insertionSort suggestionLE mapped := rfl
  have hperm : List.Perm (wordSuggestions wordlists typo language) mapped := by
    rw [hws]
    exact List.perm_insertionSort suggestionLE mapped
  have hsort : (wordSuggestions wordlists typo language).Pairwise suggestionLE := by
    rw [hws]
    exact List.sorted_insertionSort suggestionLE mapped
  refine ⟨hperm, hsort, ?_, ?_⟩
  · intro d
    rw [hws]
    exact insertionSort_filter suggestionLE (fun s => s.distance == d)
      (fun a b hpa hr hpb => by
        have ha : a.distance = d := beq_iff_eq.mp hpa
        have hb : b.distance = d := beq_iff_eq.mp hpb
        unfold suggestionLE at hr
        omega)
      mapped
  · intro hmem
    have h0 : levenshteinDistance typo typo = 0 := levenshteinDistance_self typo
    have he : ({ distance := 0, word := typo } : Suggestion) ∈ mapped := by
      rw [hmapped]
      refine List.mem_map.mpr ⟨typo, hmem, ?_⟩
      simp [h0]
    have he2 : ({ distance := 0, word := typo } : Suggestion) ∈
        wordSuggestions wordlists typo language := hperm.mem_iff.mpr he
    cases hr : wordSuggestions wordlists typo language with
    | nil =>
      rw [hr] at he2
      exact absurd he2 (List.not_mem_nil _)
    | cons h t =>
      rw [hr] at he2 hsort
      rcases List.mem_cons.mp he2 with heq | het
      · rw [← heq]
        rfl
      · have hle : suggestionLE h { distance := 0, word := typo } :=
          (List.pairwise_cons.mp hsort).1 _ het
        have hd0 : h.distance = 0 := Nat.le_zero.mp hle
        have hh : h ∈ mapped := hperm.mem_iff.mp (by rw [hr]; exact List.mem_cons_self h t)
        obtain ⟨wh, hwh, hhe⟩ := List.mem_map.mp hh
        have hdist : h.distance = levenshteinDistance typo wh := by
          rw [← hhe]
        have hwt : wh = typo :=
          ((levenshteinDistance_eq_zero_iff typo wh).mp (by omega)).symm
        have hfin : h = { distance := 0, word := typo } := by
          rw [← hhe, hwt]
          simp [h0]
        rw [hfin]
        rfl

/-- Witness for C3: ranking a canonical word of the sample wordlist puts it
first with distance 0. -/
theorem wordSuggestions_ranking_witness :
    "cat" ∈ getWordList sampleWordlists (some MnemonicLanguages.english) ∧
      (wordSuggestions sampleWordlists "cat" MnemonicLanguages.english).head? =
        some { distance := 0, word := "cat" } :=
  ⟨by decide, (wordSuggestions_ranking sampleWordlists "cat"
      MnemonicLanguages.english).2.2.2 (by decide)⟩

/-! ### Combinatorial enumeration: windows and weights -/

/-- A suggestion list is ranked: non-decreasing distance. -/
def sortedByDistance (l : List Suggestion) : Prop :=
  l.Pairwise suggestionLE

/-- The invariants the engine establishes for every `SpotSuggestions` map it
builds: the `Map` keys are distinct, and within one position the suggestion
words are distinct (they come from a duplicate-free wordlist). -/
def wellFormedSpots (spots : List (Nat × List Suggestion)) : Prop :=
  (spots.map Prod.fst).Nodup ∧ ∀ e ∈ spots, (e.2.map Suggestion.word).Nodup

/-- The distance the spots map assigns to one `(index, word)` choice. -/
def spotDistance (spots : List (Nat × List Suggestion)) (p : Nat × String) : Nat :=
  match spots.find? (fun e => e.1 == p.1) with
  | none => 0
  | some e =>
    match e.2.find? (fun s => s.word == p.2) with
    | none => 0
    | some s => s.distance

/-- The distance sum of a full replacement assignment. -/
def assignmentWeight (spots : List (Nat × List Suggestion))
    (l : List (Nat × String)) : Nat :=
  (l.map (spotDistance spots)).sum

theorem except_bind_ok {ε α β : Type} {e : Except ε α} {k : α → Except ε β} {out : β} :
    (e >>= k) = Except.ok out ↔ ∃ x, e = Except.ok x ∧ k x = Except.ok out := by
  cases e with
  | error er => simp [Bind.bind, Except.bind]
  | ok x => simp [Bind.bind, Except.bind]

theorem except_fmap_ok {ε α β : Type} {g : α → β} {e : Except ε α} {out : β} :
    (g <$> e) = Except.ok out ↔ ∃ x, e = Except.ok x ∧ g x = out := by
  cases e with
  | error er => simp [Functor.map, Except.map]
  | ok x => simp [Functor.map, Except.map]

theorem except_map_ok {ε α β : Type} {g : α → β} {e : Except ε α} {out : β} :
    Except.map g e = Except.ok out ↔ ∃ x, e = Except.ok x ∧ g x = out := by
  cases e with
  | error er => simp [Except.map]
  | ok x => simp [Except.map]

theorem suggestionsInRange_zero_none (sl : List Suggestion) :
    suggestionsInRange sl 0 none = sl := by
  unfold suggestionsInRange
  have hdrop : sl.dropWhile (fun s => decide ((s.distance : Int) < 0)) = sl := by
    cases sl with
    | nil => rfl
    | cons a t =>
      exact List.dropWhile_cons_of_neg (by simp only [decide_eq_true_eq]; omega)
  rw [hdrop]
  have htake : ∀ l : List Suggestion,
      l.takeWhile (fun s => ltMaxWeight s.distance none) = l := by
    intro l
    induction l with
    | nil => rfl
    | cons a t ih =>
      rw [List.takeWhile_cons_of_pos (by simp [ltMaxWeight]), ih]
  exact htake sl

theorem mem_suggestionsInRange (sl : List Suggestion) (minW : Int) (maxW : Option Int)
    (s : Suggestion) (hs : s ∈ suggestionsInRange sl minW maxW) :
    s ∈ sl ∧ ltMaxWeight s.distance maxW = true := by
  unfold suggestionsInRange at hs
  refine ⟨?_, List.mem_takeWhile_imp (p := fun x : Suggestion => ltMaxWeight x.distance maxW) hs⟩
  exact (List.dropWhile_sublist _).subset ((List.takeWhile_sublist _).subset hs)

theorem withNext_mem_fst : ∀ l : List α, ∀ s : α, ∀ nxt : Option α,
    (s, nxt) ∈ withNext l → s ∈ l := by
  intro l
  induction l with
  | nil => intro s nxt h; exact absurd h (List.not_mem_nil _)
  | cons a t ih =>
    intro s nxt h
    cases t with
    | nil =>
      have heq : (s, nxt) = (a, none) := by
        simp only [withNext, List.mem_singleton] at h
        exact h
      have hs : s = a := (Prod.ext_iff.mp heq).1
      simp [hs]
    | cons b u =>
      rw [withNext] at h
      rcases List.mem_cons.mp h with heq | hmem
      · have hs : s = a := (Prod.ext_iff.mp heq).1
        simp [hs]
      · exact List.mem_cons_of_mem a (ih s nxt hmem)

theorem withNext_mem_snd : ∀ l : List α, ∀ s s2 : α,
    (s, some s2) ∈ withNext l → s2 ∈ l := by
  intro l
  induction l with
  | nil => intro s s2 h; exact absurd h (List.not_mem_nil _)
  | cons a t ih =>
    intro s s2 h
    cases t with
    | nil =>
      have heq : (s, some s2) = (a, none) := by
        simp only [withNext, List.mem_singleton] at h
        exact h
      have h2 : (some s2 : Option α) = none := (Prod.ext_iff.mp heq).2
      exact absurd h2 (Option.some_ne_none s2)
    | cons b u =>
      rw [withNext] at h
      rcases List.mem_cons.mp h with heq | hmem
      · have h2 : (some s2 : Option α) = some b := (Prod.ext_iff.mp heq).2
        have hs : s2 = b := by injection h2
        simp [hs]
      · exact List.mem_cons_of_mem a (ih s s2 hmem)

theorem find?_word_of_nodup (sl : List Suggestion) (s : Suggestion)
    (hmem : s ∈ sl) (hnodup : (sl.map Suggestion.word).Nodup) :
    sl.find? (fun x => x.word == s.word) = some s := by
  induction sl with
  | nil => exact absurd hmem (List.not_mem_nil _)
  | cons a t ih =>
    rw [List.map_cons] at hnodup
    have hnd := List.nodup_cons.mp hnodup
    rcases List.mem_cons.mp hmem with heq | hmem2
    · rw [← heq]
      exact List.find?_cons_of_pos t (by simp)
    · have hne : ¬ (a.word == s.word) = true := by
        intro hb
        exact hnd.1 (List.mem_map.mpr ⟨s, hmem2, (beq_iff_eq.mp hb).symm⟩)
      rw [List.find?_cons_of_neg t hne]
      exact ih hmem2 hnd.2

theorem exceptFlatMap_ok_mem {ε α β : Type} (xs : List α) (f : α → Except ε (List β)) :
    ∀ out, exceptFlatMap xs f = Except.ok out →
    ∀ b ∈ out, ∃ a ∈ xs, ∃ la, f a = Except.ok la ∧ b ∈ la := by
  induction xs with
  | nil =>
    intro out h b hb
    have hout : out = [] := by
      have : Except.ok (ε := ε) ([] : List β) = Except.ok out := h
      injection this with h2
      exact h2.symm
    subst hout
    exact absurd hb (List.not_mem_nil _)
  | cons a t ih =>
    intro out h b hb
    rw [exceptFlatMap, List.foldr_cons] at h
    obtain ⟨ha, hfa, h2⟩ := except_bind_ok.mp h
    obtain ⟨tl, hft, h3⟩ := except_fmap_ok.mp h2
    have hout : ha ++ tl = out := h3
    subst hout
    rcases List.mem_append.mp hb with hmem | hmem
    · exact ⟨a, List.mem_cons_self a t, ha, hfa, hmem⟩
    · obtain ⟨x, hx, la, hla, hbla⟩ := ih tl hft b hmem
      exact ⟨x, List.mem_cons_of_mem a hx, la, hla, hbla⟩

theorem remaining_eq_rest (index : Nat) (suggs : List Suggestion)
    (rest : List (Nat × List Suggestion)) (hnot : index ∉ rest.map Prod.fst) :
    ((index, suggs) :: rest).filter (fun p => p.1 != index) = rest := by
  rw [List.filter_cons]
  have hhead : (((index, suggs) : Nat × List Suggestion).1 != index) = false := by simp
  rw [hhead]
  simp only [Bool.false_eq_true, if_false]
  apply List.filter_eq_self.mpr
  intro p hp
  have hne : p.1 ≠ index := fun he => hnot (List.mem_map.mpr ⟨p, hp, he⟩)
  simpa using hne

theorem spotDistance_head (index : Nat) (suggs : List Suggestion)
    (rest : List (Nat × List Suggestion)) (s : Suggestion)
    (hmem : s ∈ suggs) (hnodup : (suggs.map Suggestion.word).Nodup) :
    spotDistance ((index, suggs) :: rest) (index, s.word) = s.distance := by
  unfold spotDistance
  rw [List.find?_cons_of_pos _ (by simp)]
  simp only
  rw [find?_word_of_nodup suggs s hmem hnodup]

theorem spotDistance_cons_ne (index : Nat) (suggs : List Suggestion)
    (rest : List (Nat × List Suggestion)) (p : Nat × String) (hne : p.1 ≠ index) :
    spotDistance ((index, suggs) :: rest) p = spotDistance rest p := by
  unfold spotDistance
  rw [List.find?_cons_of_neg _ (by simp only [beq_iff_eq]; exact fun h => hne h.symm)]

theorem assignmentWeight_tail (index : Nat) (suggs : List Suggestion)
    (rest : List (Nat × List Suggestion)) (l : List (Nat × String))
    (h : ∀ p ∈ l, p.1 ≠ index) :
    assignmentWeight ((index, suggs) :: rest) l = assignmentWeight rest l := by
  unfold assignmentWeight
  congr 1
  apply List.map_congr_left
  intro p hp
  exact spotDistance_cons_ne index suggs rest p (h p hp)

theorem combineSuggestionsAux_succ_nonempty (fuel : Nat) (index : Nat)
    (suggs : List Suggestion) (rest : List (Nat × List Suggestion))
    (minW : Int) (maxW : Option Int)
    (hmin : 0 ≤ minW) (hneg : jsNegative maxW = false) :
    combineSuggestionsAux (fuel + 1) ((index, suggs) :: rest) minW maxW =
      if rest.isEmpty then
        Except.ok ((suggestionsInRange suggs minW maxW).map
          (fun s => [(index, s.word)]))
      else
        exceptFlatMap (withNext (suggestionsInRange suggs minW maxW))
          (fun sn =>
            (combineSuggestionsAux fuel
                (((index, suggs) :: rest).filter (fun p => p.1 != index)) 0
                (windowOf maxW sn.1 sn.2)).map
              (List.map (fun list => (index, sn.1.word) :: list))) := by
  have hcond : (((index, suggs) :: rest).isEmpty || decide (minW < 0) ||
      jsNegative maxW) = false := by
    simp only [List.isEmpty_cons, Bool.false_or, hneg, Bool.or_false,
      decide_eq_false_iff_not]
    omega
  simp only [combineSuggestionsAux, hcond]
  rfl

theorem combineSuggestionsAux_weight (fuel : Nat) :
    ∀ (spots : List (Nat × List Suggestion)) (maxW : Option Int)
      (out : List (List (Nat × String))),
    wellFormedSpots spots →
    combineSuggestionsAux fuel spots 0 maxW = Except.ok out →
    ∀ l ∈ out, l.map Prod.fst = spots.map Prod.fst ∧
      ltMaxWeight (assignmentWeight spots l) maxW = true := by
  induction fuel with
  | zero =>
    intro spots maxW out hwf h
    exact absurd h (by simp [combineSuggestionsAux])
  | succ fuel ih =>
    intro spots maxW out hwf h l hl
    cases spots with
    | nil =>
      rw [combineSuggestionsAux_error_of_degenerate (fuel + 1) [] 0 maxW (Or.inl rfl)] at h
      exact absurd h (by simp)
    | cons head rest =>
      obtain ⟨index, suggs⟩ := head
      by_cases hneg : jsNegative maxW = true
      · rw [combineSuggestionsAux_error_of_degenerate (fuel + 1) _ 0 maxW
          (by
            right; right
            cases maxW with
            | none => simp [jsNegative] at hneg
            | some m => exact ⟨m, rfl, by simpa [jsNegative] using hneg⟩)] at h
        exact absurd h (by simp)
      · have hneg2 : jsNegative maxW = false := by
          simpa using hneg
        rw [combineSuggestionsAux_succ_nonempty fuel index suggs rest 0 maxW
          (Int.le_refl 0) hneg2] at h
        have hwords : (suggs.map Suggestion.word).Nodup :=
          hwf.2 (index, suggs) (List.mem_cons_self _ _)
        by_cases hrest : rest.isEmpty
        · rw [if_pos hrest] at h
          have hrestnil : rest = [] := List.isEmpty_iff.mp hrest
          subst hrestnil
          have hout : out = (suggestionsInRange suggs 0 maxW).map
              (fun s => [(index, s.word)]) := by
            injection h with h2
            exact h2.symm
          subst hout
          obtain ⟨s, hsin, hls⟩ := List.mem_map.mp hl
          obtain ⟨hsmem, hslt⟩ := mem_suggestionsInRange suggs 0 maxW s hsin
          subst hls
          constructor
          · rfl
          · have hw : assignmentWeight [(index, suggs)] [(index, s.word)] =
                s.distance := by
              unfold assignmentWeight
              rw [List.map_cons, List.map_nil, List.sum_cons, List.sum_nil,
                spotDistance_head index suggs [] s hsmem hwords]
              exact Nat.add_zero s.distance
            rw [hw]
            exact hslt
        · rw [if_neg hrest] at h
          have hkeys := hwf.1
          rw [List.map_cons] at hkeys
          have hkeysnd := List.nodup_cons.mp hkeys
          have hnotmem : index ∉ rest.map Prod.fst := hkeysnd.1
          have hwfrest : wellFormedSpots rest :=
            ⟨hkeysnd.2, fun e he => hwf.2 e (List.mem_cons_of_mem _ he)⟩
          rw [remaining_eq_rest index suggs rest hnotmem] at h
          obtain ⟨sn, hsn, la, hla, hbla⟩ :=
            exceptFlatMap_ok_mem _ _ out h l hl
          obtain ⟨s, nxt⟩ := sn
          obtain ⟨out2, hout2, hla2⟩ := except_map_ok.mp hla
          rw [← hla2] at hbla
          obtain ⟨l2, hl2, heq⟩ := List.mem_map.mp hbla
          have IH := ih rest (windowOf maxW s nxt) out2 hwfrest hout2 l2 hl2
          have hsin : s ∈ suggestionsInRange suggs 0 maxW :=
            withNext_mem_fst _ s nxt hsn
          obtain ⟨hsmem, hslt⟩ := mem_suggestionsInRange suggs 0 maxW s hsin
          have hl2ne : ∀ p ∈ l2, p.1 ≠ index := by
            intro p hp he
            have hmemk : p.1 ∈ l2.map Prod.fst := List.mem_map.mpr ⟨p, hp, rfl⟩
            rw [IH.1] at hmemk
            rw [he] at hmemk
            exact hnotmem hmemk
          have hweq : assignmentWeight ((index, suggs) :: rest) l =
              s.distance + assignmentWeight rest l2 := by
            rw [← heq]
            unfold assignmentWeight
            rw [List.map_cons, List.sum_cons,
              spotDistance_head index suggs rest s hsmem hwords]
            have hsw := assignmentWeight_tail index suggs rest l2 hl2ne
            unfold assignmentWeight at hsw
            rw [hsw]
          constructor
          · rw [← heq, List.map_cons, IH.1, List.map_cons]
          · rw [hweq]
            have hbound := IH.2
            cases maxW with
            | none => rfl
            | some m =>
              simp only [ltMaxWeight, decide_eq_true_eq] at hslt ⊢
              cases nxt with
              | some s2 =>
                have hs2in : s2 ∈ suggestionsInRange suggs 0 (some m) :=
                  withNext_mem_snd _ s s2 hsn
                have hs2lt := (mem_suggestionsInRange suggs 0 (some m) s2 hs2in).2
                simp only [ltMaxWeight, decide_eq_true_eq] at hs2lt
                simp only [windowOf, ltMaxWeight, decide_eq_true_eq] at hbound
                push_cast
                omega
              | none =>
                simp only [windowOf, subtractWeight, Option.map_some', ltMaxWeight,
                  decide_eq_true_eq] at hbound
                push_cast
                omega

theorem dropWhile_sorted_eq_filter (minW : Int) : ∀ sl : List Suggestion,
    sortedByDistance sl →
    sl.dropWhile (fun s => decide ((s.distance : Int) < minW)) =
      sl.filter (fun s => decide (minW ≤ (s.distance : Int))) := by
  intro sl
  induction sl with
  | nil => intro _; rfl
  | cons a t ih =>
    intro hs
    have hparts := List.pairwise_cons.mp hs
    by_cases hd : (a.distance : Int) < minW
    · rw [List.dropWhile_cons_of_pos (by simpa using hd), List.filter_cons,
        if_neg (by simp only [decide_eq_true_eq]; omega)]
      exact ih hparts.2
    · rw [List.dropWhile_cons_of_neg (by simpa using hd), List.filter_cons,
        if_pos (by simp only [decide_eq_true_eq]; omega)]
      congr 1
      symm
      apply List.filter_eq_self.mpr
      intro x hx
      have hax : suggestionLE a x := hparts.1 x hx
      unfold suggestionLE at hax
      simp only [decide_eq_true_eq]
      omega

theorem takeWhile_sorted_eq_filter (maxW : Option Int) : ∀ sl : List Suggestion,
    sortedByDistance sl →
    sl.takeWhile (fun s => ltMaxWeight s.distance maxW) =
      sl.filter (fun s => ltMaxWeight s.distance maxW) := by
  intro sl
  induction sl with
  | nil => intro _; rfl
  | cons a t ih =>
    intro hs
    have hparts := List.pairwise_cons.mp hs
    by_cases hp : ltMaxWeight a.distance maxW = true
    · rw [List.takeWhile_cons_of_pos
        (p := fun x : Suggestion => ltMaxWeight x.distance maxW) hp,
        List.filter_cons, if_pos hp]
      rw [ih hparts.2]
    · rw [List.takeWhile_cons_of_neg
        (p := fun x : Suggestion => ltMaxWeight x.distance maxW) hp,
        List.filter_cons, if_neg hp]
      symm
      apply List.filter_eq_nil_iff.mpr
      intro x hx hpx
      cases maxW with
      | none => exact hp rfl
      | some m =>
        have hax : suggestionLE a x := hparts.1 x hx
        unfold suggestionLE at hax
        simp only [ltMaxWeight, decide_eq_true_eq] at hp hpx
        omega

theorem suggestionsInRange_eq_filter (sl : List Suggestion) (minW : Int)
    (maxW : Option Int) (hsorted : sortedByDistance sl) :
    suggestionsInRange sl minW maxW =
      sl.filter (fun s => ltMaxWeight s.distance maxW &&
        decide (minW ≤ (s.distance : Int))) := by
  unfold suggestionsInRange
  rw [dropWhile_sorted_eq_filter minW sl hsorted]
  rw [takeWhile_sorted_eq_filter maxW _
    (List.Pairwise.sublist (List.filter_sublist _) hsorted)]
  rw [List.filter_filter]

/-- C2: invoked on a map with at least two positions (with the engine's
default weights), the enumeration walks the head position's ranked
suggestions in list order — ascending distance for ranked input — and, for
each head suggestion paired with its next-ranked sibling, enumerates the
remaining positions inside the recursive call whose window is
`[0, next.distance - d)` (upper bound `none`, i.e. unbounded, when no
sibling remains); every assignment that recursive call produces has distance
sum strictly below `next.distance - d`; and the single-position base case
yields exactly the suggestions inside the active window, directly. -/
theorem combineSuggestions_windowed_enumeration
    (index : Nat) (suggs : List Suggestion) (rest : List (Nat × List Suggestion))
    (hrest : rest ≠ []) (hwf : wellFormedSpots ((index, suggs) :: rest)) :
    combineSuggestions ((index, suggs) :: rest) 0 none =
      exceptFlatMap (withNext suggs)
        (fun sn =>
          (combineSuggestions rest 0 (windowOf none sn.1 sn.2)).map
            (List.map (fun list => (index, sn.1.word) :: list))) ∧
    (∀ s s2 : Suggestion, (s, some s2) ∈ withNext suggs →
      ∀ out, combineSuggestions rest 0
          (some ((s2.distance : Int) - (s.distance : Int))) = Except.ok out →
        ∀ l ∈ out, (assignmentWeight rest l : Int) <
          (s2.distance : Int) - (s.distance : Int)) ∧
    (∀ (i : Nat) (sl : List Suggestion) (minW : Int) (maxW : Option Int),
      sortedByDistance sl → 0 ≤ minW → jsNegative maxW = false →
      combineSuggestions [(i, sl)] minW maxW =
        Except.ok ((sl.filter (fun s => ltMaxWeight s.distance maxW &&
          decide (minW ≤ (s.distance : Int)))).map (fun s => [(i, s.word)]))) := by
  have hkeys := hwf.1
  rw [List.map_cons] at hkeys
  have hkeysnd := List.nodup_cons.mp hkeys
  have hnotmem : index ∉ rest.map Prod.fst := hkeysnd.1
  have hwfrest : wellFormedSpots rest :=
    ⟨hkeysnd.2, fun e he => hwf.2 e (List.mem_cons_of_mem _ he)⟩
  refine ⟨?_, ?_, ?_⟩
  · have h1 : combineSuggestions ((index, suggs) :: rest) 0 none =
        combineSuggestionsAux (rest.length + 1) ((index, suggs) :: rest) 0 none := by
      unfold combineSuggestions
      rw [List.length_cons]
    rw [h1, combineSuggestionsAux_succ_nonempty rest.length index suggs rest 0 none
      (Int.le_refl 0) rfl]
    rw [if_neg (by simpa [List.isEmpty_iff] using hrest)]
    rw [remaining_eq_rest index suggs rest hnotmem, suggestionsInRange_zero_none]
    rfl
  · intro s s2 hsn out hout l hl
    have hw := combineSuggestionsAux_weight rest.length rest
      (some ((s2.distance : Int) - (s.distance : Int))) out hwfrest hout l hl
    have := hw.2
    simpa [ltMaxWeight] using this
  · intro i sl minW maxW hsorted hmin hneg
    have h1 : combineSuggestions [(i, sl)] minW maxW =
        combineSuggestionsAux 1 [(i, sl)] minW maxW := rfl
    rw [h1]
    rw [combineSuggestionsAux_succ_nonempty 0 i sl [] minW maxW hmin hneg]
    rw [if_pos (by simp)]
    rw [suggestionsInRange_eq_filter sl minW maxW hsorted]

/-- Witness for C2: the head-iteration equation on a concrete two-position
map. -/
theorem combineSuggestions_windowed_enumeration_witness :
    combineSuggestions [(0, [⟨0, "cat"⟩, ⟨1, "cot"⟩]), (1, [⟨0, "dog"⟩])] 0 none =
      exceptFlatMap (withNext [⟨0, "cat"⟩, ⟨1, "cot"⟩])
        (fun sn =>
          (combineSuggestions [(1, [⟨0, "dog"⟩])] 0 (windowOf none sn.1 sn.2)).map
            (List.map (fun list => (0, sn.1.word) :: list))) :=
  (combineSuggestions_windowed_enumeration 0 [⟨0, "cat"⟩, ⟨1, "cot"⟩]
    [(1, [⟨0, "dog"⟩])] (by decide) ⟨by decide, by decide⟩).1

/-- C4: with a resolved language, every phrase `suggestCorrections` yields
passes the external checksum validator for that language; the yielded
sequence is exactly the enumerated candidate phrases with the failing ones
skipped; and every enumerated candidate phrase is the original token
sequence with one enumerated assignment's per-position replacements
substituted and re-joined. -/
theorem suggestCorrections_validated
    (wordlists : MnemonicLanguages → List String)
    (bip39Validate : String → List String → Bool)
    (mnemonic : String) (language : Option MnemonicLanguages)
    (lang : MnemonicLanguages)
    (hlang : (match language with
              | some l => some l
              | none => detectLanguage wordlists (splitMnemonic mnemonic) none) =
      some lang)
    (cands : List String)
    (hcands : suggestUnvalidatedCorrections wordlists (splitMnemonic mnemonic) lang =
      Except.ok cands) :
    suggestCorrections wordlists bip39Validate mnemonic language =
      Except.ok (cands.filter (fun s =>
        validateMnemonic bip39Validate wordlists s (some lang))) ∧
    (∀ out, suggestCorrections wordlists bip39Validate mnemonic language =
        Except.ok out →
      ∀ s ∈ out, validateMnemonic bip39Validate wordlists s (some lang) = true) ∧
    (∀ c ∈ cands, ∃ lists replacementList,
      combineSuggestions
          (spotSuggestionsFor wordlists (splitMnemonic mnemonic) lang) 0 none =
        Except.ok lists ∧ replacementList ∈ lists ∧
      c = joinMnemonic
        (applyReplacements (splitMnemonic mnemonic) replacementList) (some lang)) := by
  have hmain : suggestCorrections wordlists bip39Validate mnemonic language =
      Except.ok (cands.filter (fun s =>
        validateMnemonic bip39Validate wordlists s (some lang))) := by
    unfold suggestCorrections
    dsimp only
    rw [hlang]
    dsimp only
    rw [hcands]
    rfl
  refine ⟨hmain, ?_, ?_⟩
  · intro out hout s hs
    rw [hmain] at hout
    injection hout with h2
    rw [← h2] at hs
    exact (List.mem_filter.mp hs).2
  · intro c hc
    unfold suggestUnvalidatedCorrections at hcands
    dsimp only at hcands
    by_cases hempty : (splitMnemonic mnemonic).enum.isEmpty = true
    · rw [if_pos hempty] at hcands
      injection hcands with h2
      rw [← h2] at hc
      exact absurd hc (List.not_mem_nil c)
    · rw [if_neg hempty] at hcands
      obtain ⟨lists, hlists, hg⟩ := except_map_ok.mp hcands
      refine ⟨lists, ?_⟩
      rw [← hg] at hc
      obtain ⟨replacementList, hrl, hcl⟩ := List.mem_map.mp hc
      exact ⟨replacementList, hlists, hrl, hcl.symm⟩

/-- Witness for C4: a concrete one-typo phrase, the detected language, and
the concrete enumerated candidate list. -/
theorem suggestCorrections_validated_witness :
    suggestCorrections sampleWordlists sampleValidator "cot dog" none =
      Except.ok ((["cot dog", "cat dog", "dog dog", "dog cot", "dog cat"]).filter
        (fun s => validateMnemonic sampleValidator sampleWordlists s
          (some MnemonicLanguages.english))) :=
  (suggestCorrections_validated sampleWordlists sampleValidator "cot dog" none
    MnemonicLanguages.english (by decide)
    ["cot dog", "cat dog", "dog dog", "dog cot", "dog cat"] (by rfl)).1
